import Mathlib

/-!
Shallow embedding of `src/index.py` (Pokémon Comparison Tool).

Strings are modelled as `List Char` (`Str`).  Python's `str.lower()` is
modelled on the ASCII range (the only casing the tool's data uses); the
proofs below never depend on the particular character mapping, only on the
fact that the same normalisation is applied when building the lookup set
and when scanning the checklist, exactly as in the source.
Python sets used only for membership tests (`owned_names_lower_set`,
`seen_missing_lower`) are modelled as lists queried with `∈`, which has the
same membership semantics.
-/

abbrev Str : Type := List Char

/-- Python `str.lower()` on one character (ASCII model). -/
def pyLower (c : Char) : Char :=
  if 65 ≤ c.toNat ∧ c.toNat ≤ 90 then Char.ofNat (c.toNat + 32) else c

/-- Python `s.lower()`. -/
def strLower (s : Str) : Str := List.map pyLower s

/-- Characters stripped by Python `str.strip()` (`str.isspace` characters). -/
def isPySpace (c : Char) : Bool :=
  decide ((9 ≤ c.toNat ∧ c.toNat ≤ 13) ∨ (28 ≤ c.toNat ∧ c.toNat ≤ 31) ∨
    c.toNat = 32 ∨ c.toNat = 133 ∨ c.toNat = 160 ∨ c.toNat = 0x1680 ∨
    (0x2000 ≤ c.toNat ∧ c.toNat ≤ 0x200A) ∨ c.toNat = 0x2028 ∨
    c.toNat = 0x2029 ∨ c.toNat = 0x202F ∨ c.toNat = 0x205F ∨ c.toNat = 0x3000)

/-- Python `line.strip()`: drop leading and trailing whitespace. -/
def pyStrip (s : Str) : Str :=
  ((List.dropWhile isPySpace s).reverse.dropWhile isPySpace).reverse

/-- Line boundary characters recognised by Python `str.splitlines()`
(`\r\n` is treated as a single boundary by `splitlines` below). -/
def isLineBreak (c : Char) : Bool :=
  decide ((10 ≤ c.toNat ∧ c.toNat ≤ 13) ∨ (28 ≤ c.toNat ∧ c.toNat ≤ 30) ∨
    c.toNat = 133 ∨ c.toNat = 0x2028 ∨ c.toNat = 0x2029)

/-- Worker for `splitlines`: `acc` is the current line, reversed. -/
def splitlinesAux : List Char → List Char → List (List Char)
  | [], acc => if acc = [] then [] else [acc.reverse]
  | '\r' :: '\n' :: rest, acc => acc.reverse :: splitlinesAux rest []
  | c :: rest, acc =>
    if isLineBreak c then acc.reverse :: splitlinesAux rest []
    else splitlinesAux rest (c :: acc)

/-- Python `text.splitlines()`. -/
def splitlines (s : Str) : List Str := splitlinesAux s []

/-- Function `parse_pokemon_list` (src/index.py lines 87-99): the guard
`if not text: return []` followed by the comprehension
`[line.strip() for line in text.splitlines() if line.strip()]`
(a line is kept when its stripped form is truthy, i.e. non-empty). -/
def parse_pokemon_list (text : Str) : List Str :=
  if text = [] then []
  else (splitlines text).filterMap
    (fun line => if pyStrip line = [] then none else some (pyStrip line))

/-- Function `parse_pokemon_list` applied to a possibly-null argument: Python's
`if not text` guard also sends `None` to `[]`. -/
def parse_pokemon_list_opt (text : Option Str) : List Str :=
  match text with
  | none => []
  | some t => parse_pokemon_list t

/-- Python string comparison `a <= b`: lexicographic on code points. -/
def strLe : Str → Str → Bool
  | [], _ => true
  | _ :: _, [] => false
  | a :: as, b :: bs =>
    if a.toNat < b.toNat then true
    else if b.toNat < a.toNat then false
    else strLe as bs

/-- The ordering used by `missing_pokemon.sort(key=str.lower)`:
compare the lowercase forms. -/
def lowerLe (a b : Str) : Prop := strLe (strLower a) (strLower b) = true

instance : DecidableRel lowerLe := fun a b =>
  inferInstanceAs (Decidable (strLe (strLower a) (strLower b) = true))

/-- The scan of `checklist_names` (src/index.py lines 156-163): emit a name
when its lowercase form is neither in the owned lookup set nor already
emitted, recording emitted lowercase forms in `seen`. -/
def scanMissing (checklist ownedLower seen : List Str) : List Str :=
  match checklist with
  | [] => []
  | name :: rest =>
    if strLower name ∉ ownedLower ∧ strLower name ∉ seen then
      name :: scanMissing rest ownedLower (strLower name :: seen)
    else
      scanMissing rest ownedLower seen

/-- The difference engine (src/index.py lines 153-166): build the lowercase
lookup set from `owned`, scan `checklist`, then
`missing_pokemon.sort(key=str.lower)` (a stable sort by lowercase key;
insertion sort here is such a stable sort). -/
def diff (owned checklist : List Str) : List Str :=
  List.insertionSort lowerLe (scanMissing checklist (owned.map strLower) [])

/-- Outcome of the compare operation: either the validation error of
src/index.py lines 144-146, or the count and sorted missing list. -/
inductive CompareOutcome : Type
  | validationError : CompareOutcome
  | ok : Nat → List Str → CompareOutcome
deriving DecidableEq

/-- Function `compare_lists` (src/index.py lines 133-179) at the level of the two
resolved content strings: `if not owned_content or not checklist_content`
reports the validation error; otherwise both contents are parsed and the
difference engine produces the missing list and its count. -/
def compare_lists (owned_content checklist_content : Str) : CompareOutcome :=
  if owned_content = [] ∨ checklist_content = [] then
    CompareOutcome.validationError
  else
    CompareOutcome.ok
      (diff (parse_pokemon_list owned_content)
        (parse_pokemon_list checklist_content)).length
      (diff (parse_pokemon_list owned_content)
        (parse_pokemon_list checklist_content))

/-- Specification-side definition (spec §8, for claim C6): deduplicate a
list by lowercase form, keeping the first occurrence of each form. -/
def dedupByLower : List Str → List Str
  | [] => []
  | x :: xs =>
    x :: dedupByLower (xs.filter (fun y => decide (strLower y ≠ strLower x)))
termination_by l => l.length
decreasing_by
  simp only [List.length_cons]
  exact Nat.lt_succ_of_le (List.length_filter_le _ _)

/-- Is `b` a UTF-8 continuation byte (`0x80`-`0xBF`)? -/
def isCont (b : Nat) : Bool := decide (0x80 ≤ b ∧ b ≤ 0xBF)

/-- Valid second byte for a three-byte lead (`0xE0` excludes overlong
encodings, `0xED` excludes surrogates). -/
def isCont3 (b1 b2 : Nat) : Bool :=
  if b1 = 0xE0 then decide (0xA0 ≤ b2 ∧ b2 ≤ 0xBF)
  else if b1 = 0xED then decide (0x80 ≤ b2 ∧ b2 ≤ 0x9F)
  else isCont b2

/-- Valid second byte for a four-byte lead (`0xF0` excludes overlong
encodings, `0xF4` caps at U+10FFFF). -/
def isCont4 (b1 b2 : Nat) : Bool :=
  if b1 = 0xF0 then decide (0x90 ≤ b2 ∧ b2 ≤ 0xBF)
  else if b1 = 0xF4 then decide (0x80 ≤ b2 ∧ b2 ≤ 0x8F)
  else isCont b2

/-- Python `b.decode("utf-8", errors="ignore")`: decode well-formed
sequences and silently skip the maximal subpart of each ill-formed
sequence, so the function is total. -/
def decodeUtf8Ignore : List Nat → List Char
  | [] => []
  | b1 :: rest =>
    if b1 < 0x80 then Char.ofNat b1 :: decodeUtf8Ignore rest
    else if b1 < 0xC2 then decodeUtf8Ignore rest
    else if b1 ≤ 0xDF then
      match rest with
      | [] => []
      | b2 :: rest2 =>
        if isCont b2 then
          Char.ofNat ((b1 - 0xC0) * 0x40 + (b2 - 0x80)) :: decodeUtf8Ignore rest2
        else decodeUtf8Ignore (b2 :: rest2)
    else if b1 ≤ 0xEF then
      match rest with
      | [] => []
      | b2 :: rest2 =>
        if isCont3 b1 b2 then
          match rest2 with
          | [] => []
          | b3 :: rest3 =>
            if isCont b3 then
              Char.ofNat ((b1 - 0xE0) * 0x1000 + (b2 - 0x80) * 0x40 + (b3 - 0x80)) ::
                decodeUtf8Ignore rest3
            else decodeUtf8Ignore (b3 :: rest3)
        else decodeUtf8Ignore (b2 :: rest2)
    else if b1 ≤ 0xF4 then
      match rest with
      | [] => []
      | b2 :: rest2 =>
        if isCont4 b1 b2 then
          match rest2 with
          | [] => []
          | b3 :: rest3 =>
            if isCont b3 then
              match rest3 with
              | [] => []
              | b4 :: rest4 =>
                if isCont b4 then
                  Char.ofNat ((b1 - 0xF0) * 0x40000 + (b2 - 0x80) * 0x1000 +
                    (b3 - 0x80) * 0x40 + (b4 - 0x80)) :: decodeUtf8Ignore rest4
                else decodeUtf8Ignore (b4 :: rest4)
            else decodeUtf8Ignore (b3 :: rest3)
        else decodeUtf8Ignore (b2 :: rest2)
    else decodeUtf8Ignore rest

/-- An uploaded file as seen by `get_content`: the (possibly null) filename
and the outcome of `await file.read()`, which either yields the raw bytes
or raises. -/
structure UploadFile : Type where
  filename : Option Str
  read : Except Unit (List Nat)

/-- Function `get_content` (src/index.py lines 114-126): prefer the file when one
with a truthy filename is present, decoding its bytes as UTF-8 with
errors ignored; fall back to `text or ""` when reading raises or when no
usable file is given. -/
def get_content (file : Option UploadFile) (text : Option Str) : Str :=
  match file with
  | some f =>
    match f.filename with
    | some fn =>
      if fn ≠ [] then
        match f.read with
        | Except.ok b => decodeUtf8Ignore b
        | Except.error _ => text.getD []
      else text.getD []
    | none => text.getD []
  | none => text.getD []

/-- The POST handler's input resolution (src/index.py lines 141-142)
composed with the core comparison. -/
def compare_endpoint (owned_file : Option UploadFile) (owned_text : Option Str)
    (checklist_file : Option UploadFile) (checklist_text : Option Str) :
    CompareOutcome :=
  compare_lists (get_content owned_file owned_text)
    (get_content checklist_file checklist_text)

/-! ### Order lemmas for the sort key -/

theorem strLe_total (a b : Str) : strLe a b = true ∨ strLe b a = true := by
  induction a generalizing b with
  | nil => exact Or.inl rfl
  | cons x xs ih =>
    cases b with
    | nil => exact Or.inr rfl
    | cons y ys =>
      by_cases h1 : x.toNat < y.toNat
      · left; simp [strLe, h1]
      · by_cases h2 : y.toNat < x.toNat
        · right; simp [strLe, h2]
        · rcases ih ys with h | h
          · left; simp [strLe, h1, h2, h]
          · right; simp [strLe, h1, h2, h]

theorem strLe_trans (a b c : Str) (hab : strLe a b = true)
    (hbc : strLe b c = true) : strLe a c = true := by
  induction a generalizing b c with
  | nil => rfl
  | cons x xs ih =>
    cases b with
    | nil => simp [strLe] at hab
    | cons y ys =>
      cases c with
      | nil => simp [strLe] at hbc
      | cons z zs =>
        by_cases hxy : x.toNat < y.toNat
        · by_cases hyz : y.toNat < z.toNat
          · have hxz : x.toNat < z.toNat := Nat.lt_trans hxy hyz
            simp [strLe, hxz]
          · by_cases hzy : z.toNat < y.toNat
            · simp [strLe, hyz, hzy] at hbc
            · have hxz : x.toNat < z.toNat := by omega
              simp [strLe, hxz]
        · by_cases hyx : y.toNat < x.toNat
          · simp [strLe, hxy, hyx] at hab
          · have hxs : strLe xs ys = true := by simpa [strLe, hxy, hyx] using hab
            by_cases hyz : y.toNat < z.toNat
            · have hxz : x.toNat < z.toNat := by omega
              simp [strLe, hxz]
            · by_cases hzy : z.toNat < y.toNat
              · simp [strLe, hyz, hzy] at hbc
              · have hys : strLe ys zs = true := by simpa [strLe, hyz, hzy] using hbc
                have hxz1 : ¬ x.toNat < z.toNat := by omega
                have hxz2 : ¬ z.toNat < x.toNat := by omega
                simp [strLe, hxz1, hxz2, ih ys zs hxs hys]

instance : IsTotal Str lowerLe :=
  ⟨fun a b => strLe_total (strLower a) (strLower b)⟩

instance : IsTrans Str lowerLe :=
  ⟨fun a b c => strLe_trans (strLower a) (strLower b) (strLower c)⟩

/-! ### Characterisation of the checklist scan -/

theorem find?_cons_pos (p : Str → Bool) (c : Str) (rest : List Str)
    (h : p c = true) : List.find? p (c :: rest) = some c :=
  List.find?_cons_of_pos rest h

theorem find?_cons_neg (p : Str → Bool) (c : Str) (rest : List Str)
    (h : p c = false) : List.find? p (c :: rest) = List.find? p rest :=
  List.find?_cons_of_neg rest (by simp [h])

theorem scanMissing_mem_iff (cl ol : List Str) (x : Str) :
    ∀ seen, x ∈ scanMissing cl ol seen ↔
      (strLower x ∉ ol ∧ strLower x ∉ seen ∧
        List.find? (fun y => decide (strLower y = strLower x)) cl = some x) := by
  induction cl with
  | nil => intro seen; simp [scanMissing]
  | cons c rest ih =>
    intro seen
    rw [scanMissing]
    by_cases hk : strLower c = strLower x
    · have hpc : (decide (strLower c = strLower x)) = true := by simp [hk]
      by_cases hcond : strLower c ∉ ol ∧ strLower c ∉ seen
      · rw [if_pos hcond]
        constructor
        · intro hx
          rcases List.mem_cons.1 hx with rfl | hx2
          · exact ⟨hk ▸ hcond.1, hk ▸ hcond.2,
              find?_cons_pos (fun y => decide (strLower y = strLower x)) x rest hpc⟩
          · have hrest := (ih (strLower c :: seen)).1 hx2
            have hxs : strLower x ∈ strLower c :: seen := by
              rw [← hk]; exact List.mem_cons_self _ _
            exact absurd hxs hrest.2.1
        · rintro ⟨h1, h2, h3⟩
          rw [find?_cons_pos (fun y => decide (strLower y = strLower x)) c rest hpc] at h3
          have hcx : c = x := by injection h3
          subst hcx
          exact List.mem_cons_self _ _
      · rw [if_neg hcond]
        rw [hk] at hcond
        constructor
        · intro hx
          have hrest := (ih seen).1 hx
          exact absurd ⟨hrest.1, hrest.2.1⟩ hcond
        · rintro ⟨h1, h2, _⟩
          exact absurd ⟨h1, h2⟩ hcond
    · have hpc : (decide (strLower c = strLower x)) = false := by simp [hk]
      have hfind : List.find? (fun y => decide (strLower y = strLower x)) (c :: rest) =
          List.find? (fun y => decide (strLower y = strLower x)) rest :=
        find?_cons_neg (fun y => decide (strLower y = strLower x)) c rest hpc
      rw [hfind]
      by_cases hcond : strLower c ∉ ol ∧ strLower c ∉ seen
      · rw [if_pos hcond]
        constructor
        · intro hx
          rcases List.mem_cons.1 hx with rfl | hx2
          · exact absurd rfl hk
          · have hrest := (ih (strLower c :: seen)).1 hx2
            exact ⟨hrest.1, fun hh => hrest.2.1 (List.mem_cons_of_mem _ hh), hrest.2.2⟩
        · rintro ⟨h1, h2, h3⟩
          apply List.mem_cons_of_mem
          apply (ih (strLower c :: seen)).2
          refine ⟨h1, ?_, h3⟩
          intro hh
          rcases List.mem_cons.1 hh with heq | hmem
          · exact hk heq.symm
          · exact h2 hmem
      · rw [if_neg hcond]
        exact ih seen

theorem scanMissing_pairwise (cl ol : List Str) :
    ∀ seen, List.Pairwise (fun a b => strLower a ≠ strLower b)
      (scanMissing cl ol seen) := by
  induction cl with
  | nil => intro seen; simp [scanMissing]
  | cons c rest ih =>
    intro seen
    rw [scanMissing]
    by_cases hcond : strLower c ∉ ol ∧ strLower c ∉ seen
    · rw [if_pos hcond]
      refine List.Pairwise.cons ?_ (ih _)
      intro b hb heq
      have hrest := (scanMissing_mem_iff rest ol b (strLower c :: seen)).1 hb
      exact hrest.2.1 (by rw [← heq]; exact List.mem_cons_self _ _)
    · rw [if_neg hcond]
      exact ih seen

/-- With no owned names, the scan is exactly first-occurrence
deduplication by lowercase form of the not-yet-seen entries. -/
theorem scanMissing_nil_eq_dedup (cl : List Str) :
    ∀ seen, scanMissing cl [] seen =
      dedupByLower (cl.filter (fun y => decide (strLower y ∉ seen))) := by
  induction cl with
  | nil => intro seen; simp [scanMissing, dedupByLower]
  | cons c rest ih =>
    intro seen
    rw [scanMissing]
    by_cases h : strLower c ∈ seen
    · have hpc : (decide (strLower c ∉ seen)) = false := by simp [h]
      rw [if_neg (by simp [h]), List.filter_cons_of_neg (by simp [h]), ih seen]
    · have hcond : strLower c ∉ ([] : List Str) ∧ strLower c ∉ seen :=
        ⟨List.not_mem_nil _, h⟩
      rw [if_pos hcond, List.filter_cons_of_pos (by simp [h]), dedupByLower,
        ih (strLower c :: seen)]
      have hpt : rest.filter (fun y => decide (strLower y ∉ strLower c :: seen)) =
          (rest.filter (fun y => decide (strLower y ∉ seen))).filter
            (fun y => decide (strLower y ≠ strLower c)) := by
        rw [List.filter_filter]
        apply List.filter_congr
        intro y _
        by_cases h1 : strLower y = strLower c <;>
          by_cases h2 : strLower y ∈ seen <;> simp [List.mem_cons, h1, h2]
      rw [hpt]

/-- Membership in the diff result: a name is in the missing list exactly
when its lowercase form is not owned and it is the first checklist entry
with that lowercase form. -/
theorem diff_mem_char (owned cl : List Str) (x : Str) :
    x ∈ diff owned cl ↔
      (strLower x ∉ owned.map strLower ∧
        List.find? (fun y => decide (strLower y = strLower x)) cl = some x) := by
  have hperm := List.perm_insertionSort lowerLe
    (scanMissing cl (owned.map strLower) [])
  rw [diff, hperm.mem_iff, scanMissing_mem_iff cl (owned.map strLower) x []]
  simp [List.not_mem_nil]

/-- The diff result never repeats a lowercase form. -/
theorem diff_pairwise_lower (owned cl : List Str) :
    List.Pairwise (fun a b => strLower a ≠ strLower b) (diff owned cl) := by
  have hperm := List.perm_insertionSort lowerLe
    (scanMissing cl (owned.map strLower) [])
  exact (hperm.pairwise_iff (fun h => (h ·.symm))).mpr
    (scanMissing_pairwise cl (owned.map strLower) [])

theorem nodup_all_eq_singleton {α : Type} {l : List α} {w : α} (hn : l.Nodup)
    (hall : ∀ x ∈ l, x = w) (hw : w ∈ l) : l = [w] := by
  cases l with
  | nil => cases hw
  | cons a t =>
    have ha : a = w := hall a (List.mem_cons_self _ _)
    subst ha
    cases t with
    | nil => rfl
    | cons b t2 =>
      have hb : b = a := hall b (by simp)
      rw [List.nodup_cons] at hn
      exact absurd (by rw [hb]; exact List.mem_cons_self _ _) hn.1

/-- The comprehension form of the parser equals "map strip, then drop the
lines that became empty". -/
theorem filterMap_strip_eq (ls : List Str) :
    ls.filterMap (fun line => if pyStrip line = [] then none
        else some (pyStrip line)) =
      (ls.map pyStrip).filter (fun l => decide (l ≠ [])) := by
  induction ls with
  | nil => rfl
  | cons a t ih =>
    by_cases h : pyStrip a = []
    · simp [List.filterMap_cons, h, List.filter_cons, ih]
    · simp [List.filterMap_cons, h, List.filter_cons, ih]

/-! ### Claim theorems -/

/-- C1: every element of the missing list produced by the compare
operation has a lowercase form absent from the lowercase forms of the
owned names, and no two elements of the missing list share the same
lowercase form. -/
theorem missing_invariant (owned cl : List Str) :
    (∀ x, x ∈ diff owned cl → strLower x ∉ (owned.map strLower)) ∧
      List.Pairwise (fun a b => strLower a ≠ strLower b) (diff owned cl) :=
  ⟨fun x hx => ((diff_mem_char owned cl x).1 hx).1, diff_pairwise_lower owned cl⟩

theorem missing_invariant_witness :
    strLower ['B'] ∉ ([['a']].map strLower) ∧
      List.Pairwise (fun a b => strLower a ≠ strLower b)
        (diff [['a']] [['B'], ['b']]) :=
  ⟨(missing_invariant [['a']] [['B'], ['b']]).1 ['B'] (by decide),
    (missing_invariant [['a']] [['B'], ['b']]).2⟩

/-- C2: `parse_pokemon_list` (including on a null argument) returns the
lines of the input, each trimmed, with lines that become empty discarded,
preserving trimmed casing and relative order; it is a total function and
empty or null input yields the empty sequence. -/
theorem parse_characterisation (t : Option Str) :
    parse_pokemon_list_opt t =
      ((splitlines (t.getD [])).map pyStrip).filter (fun l => decide (l ≠ [])) ∧
    parse_pokemon_list_opt none = [] ∧ parse_pokemon_list_opt (some []) = [] := by
  refine ⟨?_, rfl, rfl⟩
  cases t with
  | none => rfl
  | some s =>
    by_cases h : s = []
    · subst h; rfl
    · show parse_pokemon_list s = _
      rw [parse_pokemon_list, if_neg h, filterMap_strip_eq]
      rfl

/-- C3: the missing list returned by the compare operation is sorted
ascending by the case-insensitive key (lowercase form). -/
theorem diff_sorted (owned cl : List Str) : List.Sorted lowerLe (diff owned cl) :=
  List.sorted_insertionSort lowerLe _

/-- C4, counterexample: with owned content `""` and checklist content
`"Pikachu"` the code reports the validation error even though the two
contents are not both empty, so "error iff both inputs empty" is false. -/
theorem error_iff_both_empty_false :
    ¬ (compare_lists [] ['P','i','k','a','c','h','u'] =
         CompareOutcome.validationError ↔
        (([] : Str) = [] ∧ (['P','i','k','a','c','h','u'] : Str) = [])) := by
  decide

/-- C4, amended: the compare operation has exactly one error condition and
it occurs precisely when at least one input resolves to empty content. -/
theorem error_iff_some_empty (o c : Str) :
    compare_lists o c = CompareOutcome.validationError ↔ (o = [] ∨ c = []) := by
  rw [compare_lists]
  by_cases h : o = [] ∨ c = []
  · simp [h]
  · simp [h]

/-- C5: owned content `""` with checklist content `"Pikachu"` yields the
validation error, not a zero-count success. -/
theorem empty_owned_is_error :
    compare_lists [] ['P','i','k','a','c','h','u'] =
        CompareOutcome.validationError ∧
      compare_lists [] ['P','i','k','a','c','h','u'] ≠ CompareOutcome.ok 0 [] := by
  decide

/-- C6: with an empty owned list the diff is the checklist deduplicated by
lowercase form in case-insensitive sorted order, and with an empty
checklist the diff is empty. -/
theorem diff_empty_args (owned cl : List Str) :
    diff owned [] = [] ∧
      List.Perm (diff [] cl) (dedupByLower cl) ∧
      List.Sorted lowerLe (diff [] cl) := by
  refine ⟨rfl, ?_, List.sorted_insertionSort lowerLe _⟩
  have hperm : List.Perm (diff [] cl) (scanMissing cl [] []) :=
    List.perm_insertionSort lowerLe (scanMissing cl [] [])
  have h1 := scanMissing_nil_eq_dedup cl []
  have h2 : cl.filter (fun y => decide (strLower y ∉ ([] : List Str))) = cl :=
    List.filter_eq_self.2 (fun a _ => by simp)
  rw [h1, h2] at hperm
  exact hperm

/-- C7: the missing list contains a checklist entry exactly when its
lowercase form is not owned and the entry is the first checklist
occurrence of that lowercase form; consequently a lowercase form that
occurs in the checklist and is not owned appears exactly once in the
missing list. -/
theorem missing_first_occurrence (owned cl : List Str) :
    (∀ x, x ∈ diff owned cl ↔
      (strLower x ∉ owned.map strLower ∧
        List.find? (fun y => decide (strLower y = strLower x)) cl = some x)) ∧
    (∀ k, (∃ y, y ∈ cl ∧ strLower y = k) → k ∉ owned.map strLower →
      ((diff owned cl).filter (fun a => decide (strLower a = k))).length = 1) := by
  constructor
  · exact diff_mem_char owned cl
  · rintro k ⟨y0, hy0, rfl⟩ hno
    have hsat : ∃ z, z ∈ cl ∧ (fun y => decide (strLower y = strLower y0)) z = true :=
      ⟨y0, hy0, by simp⟩
    have hsome : (cl.find? (fun y => decide (strLower y = strLower y0))).isSome :=
      List.find?_isSome.2 hsat
    obtain ⟨w, hw⟩ := Option.isSome_iff_exists.1 hsome
    have hpw : strLower w = strLower y0 := by
      have := List.find?_some hw
      simpa using this
    have hwmem : w ∈ diff owned cl := by
      apply (diff_mem_char owned cl w).2
      refine ⟨by rw [hpw]; exact hno, ?_⟩
      have hfe : (fun y => decide (strLower y = strLower w)) =
          (fun y => decide (strLower y = strLower y0)) := by
        funext z; rw [hpw]
      rw [hfe]; exact hw
    have hnd : (diff owned cl).Nodup := by
      have hp := diff_pairwise_lower owned cl
      exact hp.imp (fun h he => h (by rw [he]))
    have hall : ∀ x ∈ (diff owned cl).filter
        (fun a => decide (strLower a = strLower y0)), x = w := by
      intro x hx
      have hx1 := (List.mem_filter.1 hx).1
      have hx2 : strLower x = strLower y0 := by
        have := (List.mem_filter.1 hx).2; simpa using this
      have hc := ((diff_mem_char owned cl x).1 hx1).2
      have hfe : (fun y => decide (strLower y = strLower x)) =
          (fun y => decide (strLower y = strLower y0)) := by
        funext z; rw [hx2]
      rw [hfe, hw] at hc
      injection hc with h
      exact h.symm
    have hwf : w ∈ (diff owned cl).filter
        (fun a => decide (strLower a = strLower y0)) :=
      List.mem_filter.2 ⟨hwmem, by simp [hpw]⟩
    rw [nodup_all_eq_singleton (hnd.filter _) hall hwf]
    rfl

theorem missing_first_occurrence_witness :
    ((diff [] [['A'], ['a']]).filter
      (fun a => decide (strLower a = ['a']))).length = 1 :=
  (missing_first_occurrence [] [['A'], ['a']]).2 ['a']
    ⟨['A'], by decide, by decide⟩ (by decide)

/-- C8: the compare computation is a pure function of exactly the two
content strings: equal inputs give equal results. -/
theorem compare_deterministic (o c o2 c2 : Str) (ho : o = o2) (hc : c = c2) :
    compare_lists o c = compare_lists o2 c2 := by
  rw [ho, hc]

theorem compare_deterministic_witness :
    compare_lists ['a'] ['b'] = compare_lists ['a'] ['b'] :=
  compare_deterministic ['a'] ['b'] ['a'] ['b'] rfl rfl

/-- C9: validation is decided on the raw content strings, not the parsed
lists: whitespace-only owned content parses to zero names yet passes
validation and the comparison proceeds. -/
theorem whitespace_owned_passes_validation :
    parse_pokemon_list [' ', ' ', ' '] = [] ∧
      compare_lists [' ', ' ', ' '] ['P','i','k','a','c','h','u'] =
        CompareOutcome.ok 1 [['P','i','k','a','c','h','u']] ∧
      compare_lists [' ', ' ', ' '] ['P','i','k','a','c','h','u'] ≠
        CompareOutcome.validationError := by
  decide

/-- C10: `get_content` is total: with a usable file whose read succeeds it
returns the UTF-8 decoding of the bytes with undecodable bytes dropped
(the decoder is a total function, so no decoding failure is observable);
when the read raises, or no usable file is given, it returns the pasted
text or the empty string; in every case the result is a string. -/
theorem get_content_total (file : Option UploadFile) (text : Option Str) :
    (∀ f fn b, file = some f → f.filename = some fn → fn ≠ [] →
        f.read = Except.ok b → get_content file text = decodeUtf8Ignore b) ∧
    (∀ f fn, file = some f → f.filename = some fn → fn ≠ [] →
        f.read = Except.error () → get_content file text = text.getD []) ∧
    (∀ f, file = some f → f.filename = none →
        get_content file text = text.getD []) ∧
    (file = none → get_content file text = text.getD []) ∧
    decodeUtf8Ignore [65, 255, 66] = [Char.ofNat 65, Char.ofNat 66] := by
  refine ⟨?_, ?_, ?_, ?_, by decide⟩
  · rintro f fn b rfl hfn hne hread
    obtain ⟨fname, fread⟩ := f
    change fname = some fn at hfn
    change fread = Except.ok b at hread
    subst hfn
    subst hread
    show (if fn ≠ [] then decodeUtf8Ignore b else text.getD []) = decodeUtf8Ignore b
    rw [if_pos hne]
  · rintro f fn rfl hfn hne hread
    obtain ⟨fname, fread⟩ := f
    change fname = some fn at hfn
    change fread = Except.error () at hread
    subst hfn
    subst hread
    show (if fn ≠ [] then text.getD [] else text.getD []) = text.getD []
    rw [if_pos hne]
  · rintro f rfl hfn
    obtain ⟨fname, fread⟩ := f
    change fname = none at hfn
    subst hfn
    rfl
  · rintro rfl
    rfl

theorem get_content_total_witness :
    get_content (some ⟨some ['x'], Except.error ()⟩) (some ['h', 'i']) =
      ['h', 'i'] :=
  (get_content_total (some ⟨some ['x'], Except.error ()⟩) (some ['h', 'i'])).2.1
    ⟨some ['x'], Except.error ()⟩ ['x'] rfl rfl (by decide) rfl
